import Mathlib

/-!
Shallow embedding of `src/your_agent/agent.py` (an Othello move chooser
built on depth-limited minimax with alpha-beta pruning) together with the
statements checked against it.

The `board.Board` collaborator is not part of the engine: the engine only
calls `legal_moves`, `process_move` (always on a fresh `deepcopy`, so a pure
successor function is faithful) and reads the 8×8 `tiles` grid.  It is
abstracted below as a structure of pure operations over an arbitrary board
representation type.
-/

/-- A move is an `(x, y)` pair of board indexes, the tuple returned by
`make_move`. -/
abbrev Move := Int × Int

/-- Scores: the Python code mixes integer piece counts with `float('inf')`
and `-float('inf')`, compared with the usual order.  Modelled as the
integers extended with a top and a bottom element. -/
abbrev Score := WithBot (WithTop ℤ)

/-- `INFINITY = float('inf')` from the source module: the greatest score. -/
def INFINITY : Score := ⊤

/-- `-INFINITY` from the source module: the least score. -/
def negINFINITY : Score := ⊥

/-- An integer score, as produced by `_cost_compute`. -/
def Score.ofInt (n : ℤ) : Score := (((n : ℤ) : WithTop ℤ) : Score)

/-- The error conditions relevant here.  `indexError` is what Python's
`legal_moves[0]` raises on an empty list; `invalidArgument` and
`illegalState` are the distinct conditions §7 of the spec asks for (the
source never produces them). -/
inductive PyErr where
  | indexError
  | invalidArgument
  | illegalState
deriving DecidableEq, Repr

/-- The Board collaborator interface consumed by the engine. -/
structure BoardAPI (β : Type) where
  legal_moves : β → Char → List Move
  process_move : β → Move → Char → β
  tiles : β → Nat → Nat → Char

/-- `GameStrategy._opponent_color`: `return 'B' if color == 'W' else 'W'`. -/
def opponent_color (color : Char) : Char := if color = 'W' then 'B' else 'W'

/-- The instance attributes stored by `GameStrategy.__init__`. -/
structure GameStrategy (β : Type) where
  depth_limit : Int
  board : β
  color : Char
  opponent_color : Char
deriving Repr

/-- `GameStrategy.__init__`: it only stores its arguments (plus the derived
opponent color).  It contains no validation and no `raise` statement, so as
a fallible constructor it always succeeds. -/
def initGameStrategy {β : Type} (depth_limit : Int) (board : β)
    (color : Char) : Except PyErr (GameStrategy β) :=
  Except.ok ⟨depth_limit, board, color, opponent_color color⟩

/-- `GameStrategy._count_pieces`: scan the 8×8 `tiles` grid (`for j in
range(8): for i in range(8)`), counting cells holding the given color. -/
def count_pieces {β : Type} (api : BoardAPI β) (board : β) (color : Char) :
    Int :=
  (List.range 8).foldl
    (fun count j =>
      (List.range 8).foldl
        (fun count i =>
          if api.tiles board i j = color then count + 1 else count)
        count)
    0

/-- `GameStrategy._cost_compute`: own pieces minus opponent pieces, from the
perspective of the given `color`. -/
def cost_compute {β : Type} (api : BoardAPI β) (board : β) (color : Char) :
    Int :=
  count_pieces api board color - count_pieces api board (opponent_color color)

/-- The `for move in board.legal_moves(color)` loop of `_min_score`,
carrying the running `best_score` and the progressively tightened `beta`.
Each iteration applies the move to a fresh copy of the board, recurses into
`_max_score` for the opponent (the call `_max_score(test_board,
opponent_color, alpha, beta, depth-1)` is abstracted as `child`, so that
the loop is structurally recursive on the move list), lowers `best_score`,
returns early once `best_score <= alpha`, and otherwise tightens `beta`
before continuing. -/
def min_loop {β : Type} (api : BoardAPI β)
    (child : β → Char → Score → Score → Score) (moves : List Move)
    (board : β) (color : Char) (alpha beta : Score) (best_score : Score) :
    Score :=
  match moves with
  | [] => best_score
  | move :: rest =>
    let test_board := api.process_move board move color
    let score := child test_board (opponent_color color) alpha beta
    let best_score1 := if score < best_score then score else best_score
    if best_score1 ≤ alpha then best_score1
    else min_loop api child rest board color alpha (min beta best_score1)
      best_score1

/-- The `for move in board.legal_moves(color)` loop of `_max_score`, the
exact mirror of `min_loop`: maximum updates, a `best_score >= beta` cutoff
and `alpha` tightening. -/
def max_loop {β : Type} (api : BoardAPI β)
    (child : β → Char → Score → Score → Score) (moves : List Move)
    (board : β) (color : Char) (alpha beta : Score) (best_score : Score) :
    Score :=
  match moves with
  | [] => best_score
  | move :: rest =>
    let test_board := api.process_move board move color
    let score := child test_board (opponent_color color) alpha beta
    let best_score1 := if score > best_score then score else best_score
    if best_score1 ≥ beta then best_score1
    else max_loop api child rest board color (max alpha best_score1) beta
      best_score1

mutual

/-- `GameStrategy._min_score`: the MIN step of the alpha-beta search.  At
depth 0 it returns the static evaluation from the given side's perspective;
otherwise it runs the loop over the legal moves with `best_score = +∞`,
each iteration recursing into `_max_score` at `depth - 1`. -/
def min_score {β : Type} (api : BoardAPI β) (board : β) (color : Char)
    (alpha beta : Score) (depth : Nat) : Score :=
  match depth with
  | 0 => Score.ofInt (cost_compute api board color)
  | d + 1 =>
    min_loop api (fun b c a bt => max_score api b c a bt d)
      (api.legal_moves board color) board color alpha beta INFINITY

/-- `GameStrategy._max_score`: the MAX step, the exact mirror of
`_min_score` with `best_score = -∞`. -/
def max_score {β : Type} (api : BoardAPI β) (board : β) (color : Char)
    (alpha beta : Score) (depth : Nat) : Score :=
  match depth with
  | 0 => Score.ofInt (cost_compute api board color)
  | d + 1 =>
    max_loop api (fun b c a bt => min_score api b c a bt d)
      (api.legal_moves board color) board color alpha beta negINFINITY

end

/-- The score computed for one candidate root move by
`alpha_beta_min_max`: apply the move to a copy of the root board and call
`_min_score` for the opponent with the full `(-∞, +∞)` window and remaining
depth `depth_limit - 1`. -/
def root_score {β : Type} (api : BoardAPI β) (g : GameStrategy β)
    (move : Move) : Score :=
  min_score api (api.process_move g.board move g.color) g.opponent_color
    negINFINITY INFINITY (g.depth_limit - 1).toNat

/-- The `for move in legal_moves` loop of `alpha_beta_min_max`, tracking
`final_move` and `best_score`; a candidate replaces the current best only on
strict improvement (`score > best_score`). -/
def root_loop {β : Type} (api : BoardAPI β) (g : GameStrategy β)
    (moves : List Move) (final_move : Move) (best_score : Score) : Move :=
  match moves with
  | [] => final_move
  | move :: rest =>
    let score := root_score api g move
    if score > best_score then root_loop api g rest move score
    else root_loop api g rest final_move best_score

/-- `GameStrategy.alpha_beta_min_max`: `final_move = legal_moves[0]` raises
an IndexError when the enumeration is empty; otherwise the loop runs over
all legal moves starting from `best_score = -INFINITY`. -/
def alpha_beta_min_max {β : Type} (api : BoardAPI β) (g : GameStrategy β) :
    Except PyErr Move :=
  match api.legal_moves g.board g.color with
  | [] => Except.error PyErr.indexError
  | m0 :: rest => Except.ok (root_loop api g (m0 :: rest) m0 negINFINITY)

/-- `make_move`: the module-level entry point; builds a `GameStrategy` with
the fixed depth limit 4 and asks it for a move. -/
def make_move {β : Type} (api : BoardAPI β) (the_board : β) (color : Char) :
    Except PyErr Move :=
  match initGameStrategy 4 the_board color with
  | Except.ok game_strategy => alpha_beta_min_max api game_strategy
  | Except.error e => Except.error e

/-! ## Unpruned minimax

The comparator demanded by the spec's refinement property: a full
(unpruned) minimax search of the same depth, with the same leaf evaluation,
the same side alternation, the same `±∞` convention on an empty
enumeration, and the same first-in-enumeration-order tie-break at the
root.  It differs from `min_score`/`max_score` only in that no alpha-beta
window is carried, so no branch is ever cut off. -/

mutual

/-- Unpruned MIN step: fold `min` over all successors, starting from `+∞`. -/
def minimax_min {β : Type} (api : BoardAPI β) (board : β) (color : Char)
    (depth : Nat) : Score :=
  match depth with
  | 0 => Score.ofInt (cost_compute api board color)
  | d + 1 =>
    (api.legal_moves board color).foldl
      (fun best move =>
        min best
          (minimax_max api (api.process_move board move color)
            (opponent_color color) d))
      INFINITY

/-- Unpruned MAX step: fold `max` over all successors, starting from `-∞`. -/
def minimax_max {β : Type} (api : BoardAPI β) (board : β) (color : Char)
    (depth : Nat) : Score :=
  match depth with
  | 0 => Score.ofInt (cost_compute api board color)
  | d + 1 =>
    (api.legal_moves board color).foldl
      (fun best move =>
        max best
          (minimax_min api (api.process_move board move color)
            (opponent_color color) d))
      negINFINITY

end

/-- The root score of one candidate move under unpruned minimax. -/
def minimax_root_score {β : Type} (api : BoardAPI β) (g : GameStrategy β)
    (move : Move) : Score :=
  minimax_min api (api.process_move g.board move g.color) g.opponent_color
    (g.depth_limit - 1).toNat

/-- The root selection loop of the unpruned search: identical to
`root_loop`, strict-improvement update and all, but scoring each move with
`minimax_root_score`. -/
def minimax_root_loop {β : Type} (api : BoardAPI β) (g : GameStrategy β)
    (moves : List Move) (final_move : Move) (best_score : Score) : Move :=
  match moves with
  | [] => final_move
  | move :: rest =>
    let score := minimax_root_score api g move
    if score > best_score then minimax_root_loop api g rest move score
    else minimax_root_loop api g rest final_move best_score

/-- Move selection by full unpruned minimax, with the same shape as
`alpha_beta_min_max` at the root. -/
def minimax_select {β : Type} (api : BoardAPI β) (g : GameStrategy β) :
    Except PyErr Move :=
  match api.legal_moves g.board g.color with
  | [] => Except.error PyErr.indexError
  | m0 :: rest =>
    Except.ok (minimax_root_loop api g (m0 :: rest) m0 negINFINITY)

/-! ## The one-ply selector described by the spec

A second definition written from the spec's words, for comparison with the
code: "pick the move maximizing the immediate material difference after one
ply" — the *engine's* piece count minus the opponent's on the position
reached after the engine's own move — with ties resolved in favor of the
earliest move in enumeration order. -/

/-- The immediate material difference, from the engine's perspective, of
the position reached by playing `move`. -/
def greedy_score {β : Type} (api : BoardAPI β) (g : GameStrategy β)
    (move : Move) : Score :=
  Score.ofInt (cost_compute api (api.process_move g.board move g.color)
    g.color)

/-- First-in-enumeration-order argmax loop over `greedy_score`. -/
def greedy_loop {β : Type} (api : BoardAPI β) (g : GameStrategy β)
    (moves : List Move) (final_move : Move) (best_score : Score) : Move :=
  match moves with
  | [] => final_move
  | move :: rest =>
    let score := greedy_score api g move
    if score > best_score then greedy_loop api g rest move score
    else greedy_loop api g rest final_move best_score

/-- The selector the spec's depth-1 sentence describes: maximize the
engine's immediate material difference, earliest move wins ties. -/
def greedy_select {β : Type} (api : BoardAPI β) (g : GameStrategy β) :
    Except PyErr Move :=
  match api.legal_moves g.board g.color with
  | [] => Except.error PyErr.indexError
  | m0 :: rest => Except.ok (greedy_loop api g (m0 :: rest) m0 negINFINITY)

/-! ## Concrete Board collaborators used as witnesses -/

/-- A board collaborator with no legal moves anywhere. -/
def apiEmpty : BoardAPI Nat where
  legal_moves := fun _ _ => []
  process_move := fun b _ _ => b
  tiles := fun _ _ _ => '.'

/-- An engine over `apiEmpty`. -/
def gEmpty : GameStrategy Nat := ⟨1, 0, 'B', 'W'⟩

/-- A three-position collaborator: from board `0`, Black has the two moves
`(0,0)` (leading to board `1`: three black pieces, no white) and `(1,1)`
(leading to board `2`: one black piece, two white). -/
def apiC1 : BoardAPI Nat where
  legal_moves := fun b c =>
    if b = 0 ∧ c = 'B' then [((0 : Int), (0 : Int)), ((1 : Int), (1 : Int))]
    else []
  process_move := fun b move _ =>
    if b = 0 then (if move = ((0 : Int), (0 : Int)) then 1 else 2) else b
  tiles := fun b i j =>
    if b = 1 then (if j = 0 ∧ i < 3 then 'B' else '.')
    else if b = 2 then
      (if j = 0 ∧ i = 0 then 'B'
       else if j = 0 ∧ (i = 1 ∨ i = 2) then 'W' else '.')
    else '.'

/-- A depth-1 engine playing Black over `apiC1`. -/
def gC1 : GameStrategy Nat := ⟨1, 0, 'B', 'W'⟩

example : count_pieces apiC1 1 'B' = 3 := by decide

example : count_pieces apiC1 2 'W' = 2 := by decide

/-- A four-position collaborator exhibiting a tie: from board `0`, Black
has three moves; `(0,0)` and `(1,1)` both lead to boards worth `1` at the
depth-1 horizon, `(2,2)` to one worth `0`. -/
def apiC5 : BoardAPI Nat where
  legal_moves := fun b c =>
    if b = 0 ∧ c = 'B' then
      [((0 : Int), (0 : Int)), ((1 : Int), (1 : Int)), ((2 : Int), (2 : Int))]
    else []
  process_move := fun b move _ =>
    if b = 0 then
      (if move = ((0 : Int), (0 : Int)) then 1
       else if move = ((1 : Int), (1 : Int)) then 2 else 3)
    else b
  tiles := fun b i j =>
    if b = 1 ∧ i = 0 ∧ j = 0 then 'W'
    else if b = 2 ∧ i = 1 ∧ j = 0 then 'W'
    else '.'

/-- A depth-1 engine playing Black over `apiC5`. -/
def gC5 : GameStrategy Nat := ⟨1, 0, 'B', 'W'⟩

example : root_score apiC5 gC5 ((0 : Int), (0 : Int)) = Score.ofInt 1 := by
  decide

example : root_score apiC5 gC5 ((1 : Int), (1 : Int)) = Score.ofInt 1 := by
  decide

example : root_score apiC5 gC5 ((2 : Int), (2 : Int)) = Score.ofInt 0 := by
  decide

example : alpha_beta_min_max apiC5 gC5 = Except.ok ((0 : Int), (0 : Int)) :=
  rfl

/-! ## C1 -/

/-- C1: with `depth_limit = 1` the engine is claimed to return the move
maximizing its own immediate material difference.  It does not: at odd
depths the leaf is evaluated inside `_min_score` from the *opponent's*
perspective (`_cost_compute(board, opponent_color)`), and the root then
maximizes that value.  On `apiC1` the engine returns `(1,1)` — the move
leaving it with 1 piece against 2 — while the spec's one-ply selector
returns `(0,0)`, the move leaving it with 3 pieces against 0. -/
theorem C1_depth1_maximizes_opponent_material :
    alpha_beta_min_max apiC1 gC1 = Except.ok ((1 : Int), (1 : Int)) ∧
    greedy_select apiC1 gC1 = Except.ok ((0 : Int), (0 : Int)) ∧
    greedy_score apiC1 gC1 ((0 : Int), (0 : Int)) = Score.ofInt 3 ∧
    greedy_score apiC1 gC1 ((1 : Int), (1 : Int)) = Score.ofInt (-1) := by
  refine ⟨rfl, rfl, by decide, by decide⟩

/-! ## C3 -/

/-- C3 (amended): constructing the engine never fails, whatever the depth
limit: `__init__` stores its arguments without any validation, so a depth
limit `≤ 0` is accepted rather than rejected with an invalid-argument
error. -/
theorem C3_depth_not_validated {β : Type} (d : Int) (b : β) (c : Char)
    (hd : d ≤ 0) :
    initGameStrategy d b c = Except.ok ⟨d, b, c, opponent_color c⟩ := rfl

/-- C3 witness: the amended statement at depth limit `0`. -/
theorem C3_depth_not_validated_witness :
    (0 : Int) ≤ 0 ∧
      initGameStrategy 0 (0 : Nat) 'B' = Except.ok ⟨0, 0, 'B', 'W'⟩ :=
  ⟨le_refl 0, C3_depth_not_validated 0 (0 : Nat) 'B' (le_refl 0)⟩

/-- C3 counterexample: at depth limit `0` construction succeeds; it does
not fail with an invalid-argument error. -/
theorem C3_construction_succeeds_at_zero :
    initGameStrategy 0 (0 : Nat) 'B' ≠ Except.error PyErr.invalidArgument ∧
      initGameStrategy 0 (0 : Nat) 'B' = Except.ok ⟨0, 0, 'B', 'W'⟩ :=
  ⟨fun h => Except.noConfusion h, rfl⟩

/-! ## C4 -/

/-- C4 (amended): with zero legal moves at the root,
`alpha_beta_min_max` fails — `legal_moves[0]` raises a generic IndexError —
and never returns a move; the failure is not the distinct
IllegalState / "no legal moves available" condition the spec prescribes. -/
theorem C4_empty_enumeration_fails_index_error {β : Type}
    (api : BoardAPI β) (g : GameStrategy β)
    (h : api.legal_moves g.board g.color = []) :
    alpha_beta_min_max api g = Except.error PyErr.indexError := by
  unfold alpha_beta_min_max
  rw [h]

/-- C4 witness: the amended statement on `apiEmpty`. -/
theorem C4_empty_enumeration_fails_index_error_witness :
    apiEmpty.legal_moves gEmpty.board gEmpty.color = [] ∧
      alpha_beta_min_max apiEmpty gEmpty = Except.error PyErr.indexError :=
  ⟨rfl, C4_empty_enumeration_fails_index_error apiEmpty gEmpty rfl⟩

/-- C4 counterexample: on a root with zero legal moves the failure is an
IndexError, not the claimed distinct IllegalState condition. -/
theorem C4_not_illegal_state :
    alpha_beta_min_max apiEmpty gEmpty ≠ Except.error PyErr.illegalState ∧
      alpha_beta_min_max apiEmpty gEmpty = Except.error PyErr.indexError := by
  constructor
  · intro h
    rw [show alpha_beta_min_max apiEmpty gEmpty
          = Except.error PyErr.indexError from rfl] at h
    injection h with h2
    exact PyErr.noConfusion h2
  · rfl

/-! ## C7 -/

/-- C7: at remaining depth `≥ 1`, a side with an empty legal-move
enumeration makes the MIN step return `+∞` (its untouched initial bound)
and the MAX step return `-∞`. -/
theorem C7_empty_enumeration_saturated_bounds {β : Type}
    (api : BoardAPI β) (b : β) (c : Char) (alpha beta : Score) (d : Nat)
    (hd : 1 ≤ d) (h : api.legal_moves b c = []) :
    min_score api b c alpha beta d = INFINITY ∧
      max_score api b c alpha beta d = negINFINITY := by
  match d, hd with
  | d' + 1, _ =>
    constructor
    · rw [min_score, h]; rfl
    · rw [max_score, h]; rfl

/-- C7 witness: the statement on `apiEmpty` at depth 1. -/
theorem C7_empty_enumeration_saturated_bounds_witness :
    (1 ≤ 1 ∧ apiEmpty.legal_moves 0 'B' = []) ∧
      min_score apiEmpty 0 'B' negINFINITY INFINITY 1 = INFINITY ∧
        max_score apiEmpty 0 'B' negINFINITY INFINITY 1 = negINFINITY :=
  ⟨⟨le_refl 1, rfl⟩,
    C7_empty_enumeration_saturated_bounds apiEmpty 0 'B' negINFINITY INFINITY
      1 (le_refl 1) rfl⟩

example : (min (Score.ofInt 3) INFINITY) = Score.ofInt 3 := by decide

/-! ## The shared shape of the three root selection loops -/

/-- The common shape of `root_loop`, `minimax_root_loop` and `greedy_loop`:
a first-in-enumeration-order strict-improvement scan with scoring
function `f`. -/
def select_loop (f : Move → Score) : List Move → Move → Score → Move
  | [], final_move, _ => final_move
  | move :: rest, final_move, best_score =>
    if f move > best_score then select_loop f rest move (f move)
    else select_loop f rest final_move best_score

/-- The running maximum of the scores of `moves`, seeded with `bs`. -/
def fold_max (f : Move → Score) (bs : Score) (moves : List Move) : Score :=
  moves.foldl (fun a m => max a (f m)) bs

lemma fold_max_nil (f : Move → Score) (bs : Score) : fold_max f bs [] = bs :=
  rfl

lemma fold_max_cons (f : Move → Score) (bs : Score) (m : Move)
    (rest : List Move) :
    fold_max f bs (m :: rest) = fold_max f (max bs (f m)) rest := rfl

lemma le_fold_max_init (f : Move → Score) :
    ∀ (moves : List Move) (bs : Score), bs ≤ fold_max f bs moves := by
  intro moves
  induction moves with
  | nil => intro bs; exact le_refl bs
  | cons m rest ih =>
    intro bs
    rw [fold_max_cons]
    exact le_trans (le_max_left bs (f m)) (ih (max bs (f m)))

lemma le_fold_max_mem (f : Move → Score) :
    ∀ (moves : List Move) (bs : Score) (m : Move), m ∈ moves →
      f m ≤ fold_max f bs moves := by
  intro moves
  induction moves with
  | nil => intro bs m hm; cases hm
  | cons m0 rest ih =>
    intro bs m hm
    rw [fold_max_cons]
    rcases List.mem_cons.mp hm with h | h
    · subst h
      exact le_trans (le_max_right bs (f m)) (le_fold_max_init f rest _)
    · exact ih (max bs (f m0)) m h

lemma root_loop_eq_select {β : Type} (api : BoardAPI β) (g : GameStrategy β) :
    ∀ (moves : List Move) (fm : Move) (bs : Score),
      root_loop api g moves fm bs = select_loop (root_score api g) moves fm bs := by
  intro moves
  induction moves with
  | nil => intro fm bs; rfl
  | cons m rest ih =>
    intro fm bs
    simp only [root_loop, select_loop]
    split
    · exact ih m (root_score api g m)
    · exact ih fm bs

lemma minimax_root_loop_eq_select {β : Type} (api : BoardAPI β)
    (g : GameStrategy β) :
    ∀ (moves : List Move) (fm : Move) (bs : Score),
      minimax_root_loop api g moves fm bs
        = select_loop (minimax_root_score api g) moves fm bs := by
  intro moves
  induction moves with
  | nil => intro fm bs; rfl
  | cons m rest ih =>
    intro fm bs
    simp only [minimax_root_loop, select_loop]
    split
    · exact ih m (minimax_root_score api g m)
    · exact ih fm bs

lemma select_loop_congr (f f' : Move → Score) :
    ∀ (moves : List Move) (fm : Move) (bs : Score),
      (∀ m ∈ moves, f m = f' m) →
      select_loop f moves fm bs = select_loop f' moves fm bs := by
  intro moves
  induction moves with
  | nil => intro fm bs _; rfl
  | cons m rest ih =>
    intro fm bs hagree
    have hm : f m = f' m := hagree m (List.mem_cons_self m rest)
    have hrest : ∀ m' ∈ rest, f m' = f' m' := fun m' hm' =>
      hagree m' (List.mem_cons_of_mem m hm')
    simp only [select_loop, hm]
    split
    · rw [← hm, ih m (f m) hrest, hm]
    · exact ih fm bs hrest

lemma select_loop_mem (f : Move → Score) :
    ∀ (moves : List Move) (fm : Move) (bs : Score),
      select_loop f moves fm bs = fm ∨ select_loop f moves fm bs ∈ moves := by
  intro moves
  induction moves with
  | nil => intro fm bs; exact Or.inl rfl
  | cons m rest ih =>
    intro fm bs
    simp only [select_loop]
    split
    · rcases ih m (f m) with h | h
      · exact Or.inr (by rw [h]; exact List.mem_cons_self m rest)
      · exact Or.inr (List.mem_cons_of_mem m h)
    · rcases ih fm bs with h | h
      · exact Or.inl h
      · exact Or.inr (List.mem_cons_of_mem m h)

/-- The selection loop returns either its seed (when nothing strictly beat
`bs`) or the first move in enumeration order attaining the running
maximum. -/
lemma select_loop_spec (f : Move → Score) :
    ∀ (moves : List Move) (fm : Move) (bs : Score),
      (select_loop f moves fm bs = fm ∧ fold_max f bs moves = bs) ∨
      (∃ pre post, moves = pre ++ select_loop f moves fm bs :: post ∧
        f (select_loop f moves fm bs) = fold_max f bs moves ∧
        bs < fold_max f bs moves ∧
        ∀ m' ∈ pre, f m' < fold_max f bs moves) := by
  intro moves
  induction moves with
  | nil => intro fm bs; exact Or.inl ⟨rfl, rfl⟩
  | cons m rest ih =>
    intro fm bs
    rw [fold_max_cons]
    by_cases hgt : f m > bs
    · have hmax : max bs (f m) = f m := max_eq_right (le_of_lt hgt)
      rw [hmax]
      have hsel : select_loop f (m :: rest) fm bs = select_loop f rest m (f m) := by
        simp only [select_loop]
        rw [if_pos hgt]
      rw [hsel]
      rcases ih m (f m) with ⟨h1, h2⟩ | ⟨pre, post, he, hf, hlt, hpre⟩
      · refine Or.inr ⟨[], rest, ?_, ?_, ?_, ?_⟩
        · rw [h1]; rfl
        · rw [h1, h2]
        · rw [h2]; exact hgt
        · intro m' hm'; cases hm'
      · refine Or.inr ⟨m :: pre, post, ?_, hf, ?_, ?_⟩
        · rw [List.cons_append, ← he]
        · exact lt_trans hgt hlt
        · intro m' hm'
          rcases List.mem_cons.mp hm' with h | h
          · subst h; exact hlt
          · exact hpre m' h
    · have hle : f m ≤ bs := le_of_not_lt hgt
      have hmax : max bs (f m) = bs := max_eq_left hle
      rw [hmax]
      have hsel : select_loop f (m :: rest) fm bs = select_loop f rest fm bs := by
        simp only [select_loop]
        rw [if_neg hgt]
      rw [hsel]
      rcases ih fm bs with ⟨h1, h2⟩ | ⟨pre, post, he, hf, hlt, hpre⟩
      · exact Or.inl ⟨h1, h2⟩
      · refine Or.inr ⟨m :: pre, post, ?_, hf, hlt, ?_⟩
        · rw [List.cons_append, ← he]
        · intro m' hm'
          rcases List.mem_cons.mp hm' with h | h
          · subst h; exact lt_of_le_of_lt hle hlt
          · exact hpre m' h

/-! ## C5 -/

/-- C5: the best candidate is replaced only on strict improvement, so the
move returned by `alpha_beta_min_max` is the earliest move in the Board
collaborator's enumeration attaining the maximal root search score: every
earlier move scores strictly less, and no move scores more. -/
theorem C5_strict_improvement_first_tie_break {β : Type} (api : BoardAPI β)
    (g : GameStrategy β) (m0 : Move) (rest : List Move)
    (h : api.legal_moves g.board g.color = m0 :: rest) :
    ∃ m pre post, alpha_beta_min_max api g = Except.ok m ∧
      m0 :: rest = pre ++ m :: post ∧
      (∀ m' ∈ pre, root_score api g m' < root_score api g m) ∧
      ∀ m' ∈ m0 :: rest, root_score api g m' ≤ root_score api g m := by
  have hab : alpha_beta_min_max api g
      = Except.ok (root_loop api g (m0 :: rest) m0 negINFINITY) := by
    unfold alpha_beta_min_max
    rw [h]
  rw [root_loop_eq_select] at hab
  set r := select_loop (root_score api g) (m0 :: rest) m0 negINFINITY with hr
  rcases select_loop_spec (root_score api g) (m0 :: rest) m0 negINFINITY with
    ⟨h1, h2⟩ | ⟨pre, post, he, hf, _, hpre⟩
  · refine ⟨m0, [], rest, ?_, rfl, ?_, ?_⟩
    · rw [hab, hr, h1]
    · intro m' hm'; cases hm'
    · intro m' hm'
      have hup : root_score api g m'
          ≤ fold_max (root_score api g) negINFINITY (m0 :: rest) :=
        le_fold_max_mem (root_score api g) (m0 :: rest) negINFINITY m' hm'
      rw [h2] at hup
      exact le_trans hup bot_le
  · refine ⟨r, pre, post, hab, he, ?_, ?_⟩
    · intro m' hm'
      rw [hf]
      exact hpre m' hm'
    · intro m' hm'
      rw [hf]
      exact le_fold_max_mem (root_score api g) (m0 :: rest) negINFINITY m' hm'

/-- C5 witness: a root with a tied top score — moves `(0,0)` and `(1,1)`
both score `1` — where the engine keeps the earlier one. -/
theorem C5_strict_improvement_first_tie_break_witness :
    apiC5.legal_moves gC5.board gC5.color
        = [((0 : Int), (0 : Int)), ((1 : Int), (1 : Int)),
            ((2 : Int), (2 : Int))] ∧
      ∃ m pre post, alpha_beta_min_max apiC5 gC5 = Except.ok m ∧
        [((0 : Int), (0 : Int)), ((1 : Int), (1 : Int)),
            ((2 : Int), (2 : Int))] = pre ++ m :: post ∧
        (∀ m' ∈ pre, root_score apiC5 gC5 m' < root_score apiC5 gC5 m) ∧
        ∀ m' ∈ [((0 : Int), (0 : Int)), ((1 : Int), (1 : Int)),
            ((2 : Int), (2 : Int))],
          root_score apiC5 gC5 m' ≤ root_score apiC5 gC5 m :=
  ⟨rfl, C5_strict_improvement_first_tie_break apiC5 gC5
    ((0 : Int), (0 : Int))
    [((1 : Int), (1 : Int)), ((2 : Int), (2 : Int))] rfl⟩

/-! ## C6 -/

/-- C6: any move `alpha_beta_min_max` returns is a member of the Board
collaborator's legal-move enumeration for the root position. -/
theorem C6_returned_move_is_legal {β : Type} (api : BoardAPI β)
    (g : GameStrategy β) (m : Move)
    (h : alpha_beta_min_max api g = Except.ok m) :
    m ∈ api.legal_moves g.board g.color := by
  rcases hl : api.legal_moves g.board g.color with _ | ⟨m0, rest⟩
  · rw [alpha_beta_min_max, hl] at h
    cases h
  · rw [alpha_beta_min_max, hl] at h
    have hm : root_loop api g (m0 :: rest) m0 negINFINITY = m := by
      injection h
    rw [root_loop_eq_select] at hm
    rcases select_loop_mem (root_score api g) (m0 :: rest) m0 negINFINITY with
      hsel | hsel
    · rw [hm] at hsel
      rw [← hsel]
      exact List.mem_cons_self m rest
    · rw [hm] at hsel
      exact hsel

/-- C6 witness: the returned move on `apiC1` is one of the two enumerated
legal moves. -/
theorem C6_returned_move_is_legal_witness :
    alpha_beta_min_max apiC1 gC1 = Except.ok ((1 : Int), (1 : Int)) ∧
      ((1 : Int), (1 : Int)) ∈ apiC1.legal_moves gC1.board gC1.color :=
  ⟨rfl, C6_returned_move_is_legal apiC1 gC1 ((1 : Int), (1 : Int)) rfl⟩

/-! ## Alpha-beta versus unpruned minimax

The fail-soft contract of a windowed search result `r` against the true
minimax value `v`: inside the window `r` is exact, at or below `alpha` it
upper-bounds `v`, at or above `beta` it lower-bounds `v`. -/

def ab_spec (r v alpha beta : Score) : Prop :=
  (r ≤ alpha → v ≤ r) ∧ (beta ≤ r → r ≤ v) ∧ (alpha < r → r < beta → r = v)

/-- The running minimum of the scores of `moves`, seeded with `acc`:
the shape of the fold in `minimax_min`. -/
def fold_min (f : Move → Score) (acc : Score) (moves : List Move) : Score :=
  moves.foldl (fun a m => min a (f m)) acc

lemma fold_min_cons (f : Move → Score) (acc : Score) (m : Move)
    (rest : List Move) :
    fold_min f acc (m :: rest) = fold_min f (min acc (f m)) rest := rfl

lemma fold_min_le_init (f : Move → Score) :
    ∀ (moves : List Move) (acc : Score), fold_min f acc moves ≤ acc := by
  intro moves
  induction moves with
  | nil => intro acc; exact le_refl acc
  | cons m rest ih =>
    intro acc
    rw [fold_min_cons]
    exact le_trans (ih (min acc (f m))) (min_le_left acc (f m))

/-- Fail-soft contract of the MIN loop, by induction along the move list.
`child` is the windowed search of a successor, `w` its true minimax value;
`best` is the running best score and `p` the running minimum of the true
values of the successors already scanned.  The loop's `beta` argument is
always `min beta0 best` for the original window bound `beta0`. -/
lemma min_loop_ab {β : Type} (api : BoardAPI β)
    (child : β → Char → Score → Score → Score) (w : β → Char → Score)
    (hchild : ∀ (b : β) (c : Char) (a bt : Score), a < bt →
      ab_spec (child b c a bt) (w b c) a bt)
    (board : β) (color : Char) (alpha beta0 : Score) (hab : alpha < beta0) :
    ∀ (moves : List Move) (best p : Score), alpha < best →
      (beta0 ≤ best → best ≤ p) → (best < beta0 → best = p) →
      ab_spec
        (min_loop api child moves board color alpha (min beta0 best) best)
        (fold_min
          (fun mv =>
            w (api.process_move board mv color) (opponent_color color))
          p moves)
        alpha beta0 := by
  intro moves
  induction moves with
  | nil =>
    intro best p hbest hB hC
    exact ⟨fun h => absurd h (not_le.mpr hbest), hB, fun _ h2 => hC h2⟩
  | cons mv rest ih =>
    intro best p hbest hB hC
    simp only [min_loop, fold_min_cons]
    set tb := api.process_move board mv color with htb
    set s := child tb (opponent_color color) alpha (min beta0 best) with hsdef
    set w' := w tb (opponent_color color) with hwdef
    obtain ⟨hs1, hs2, hs3⟩ :=
      hchild tb (opponent_color color) alpha (min beta0 best)
        (lt_min hab hbest)
    rw [← hsdef, ← hwdef] at hs1 hs2 hs3
    have hbest1 : (if s < best then s else best) = min best s := by
      rcases lt_or_le s best with h | h
      · rw [if_pos h, min_eq_right (le_of_lt h)]
      · rw [if_neg (not_lt.mpr h), min_eq_left h]
    rw [hbest1]
    by_cases hcut : min best s ≤ alpha
    · rw [if_pos hcut]
      have hsb : s < best := by
        rcases lt_or_le s best with h | h
        · exact h
        · rw [min_eq_left h] at hcut
          exact absurd hcut (not_le.mpr hbest)
      have hmin : min best s = s := min_eq_right (le_of_lt hsb)
      rw [hmin] at hcut ⊢
      have hws : w' ≤ s := hs1 hcut
      refine ⟨fun _ => ?_, fun hbet => ?_, fun hlt1 _ => ?_⟩
      · exact le_trans (fold_min_le_init _ rest (min p w'))
          (le_trans (min_le_right p w') hws)
      · exact absurd (lt_of_le_of_lt (le_trans hbet hcut) hab)
          (lt_irrefl beta0)
      · exact absurd (lt_of_lt_of_le hlt1 hcut) (lt_irrefl alpha)
    · rw [if_neg hcut]
      have halt : alpha < min best s := not_le.mp hcut
      have hassoc : min (min beta0 best) (min best s)
          = min beta0 (min best s) := by
        rw [min_assoc, min_eq_right (min_le_left best s)]
      rw [hassoc]
      have hB' : beta0 ≤ min best s → min best s ≤ min p w' := by
        intro h
        have h1b : beta0 ≤ best := le_trans h (min_le_left best s)
        have h1s : beta0 ≤ s := le_trans h (min_le_right best s)
        have hbp : best ≤ p := hB h1b
        have hsw : s ≤ w' := hs2 (le_trans (min_le_left beta0 best) h1s)
        exact le_min (le_trans (min_le_left best s) hbp)
          (le_trans (min_le_right best s) hsw)
      have hC' : min best s < beta0 → min best s = min p w' := by
        intro h
        rcases lt_or_le s best with hsb | hbs
        · have hmin : min best s = s := min_eq_right (le_of_lt hsb)
          rw [hmin] at h halt ⊢
          have hsw : s = w' := hs3 halt (lt_min h hsb)
          have hsp : s ≤ p := by
            rcases lt_or_le best beta0 with hbb | hbb
            · rw [← hC hbb]
              exact le_of_lt hsb
            · exact le_trans (le_of_lt hsb) (hB hbb)
          rw [← hsw, min_eq_right hsp]
        · have hmin : min best s = best := min_eq_left hbs
          rw [hmin] at h ⊢
          have hbw : best ≤ w' := by
            rcases lt_or_le s (min beta0 best) with hlt | hge
            · rw [← hs3 (lt_of_lt_of_le hbest hbs) hlt]
              exact hbs
            · exact le_trans hbs (hs2 hge)
          rw [← hC h]
          exact (min_eq_left hbw).symm
      exact ih (min best s) (min p w') halt hB' hC'

/-- Fail-soft contract of the MAX loop, the mirror of `min_loop_ab`: `p` is
the running maximum of the true values of the successors already scanned,
and the loop's `alpha` argument is always `max alpha0 best`. -/
lemma max_loop_ab {β : Type} (api : BoardAPI β)
    (child : β → Char → Score → Score → Score) (w : β → Char → Score)
    (hchild : ∀ (b : β) (c : Char) (a bt : Score), a < bt →
      ab_spec (child b c a bt) (w b c) a bt)
    (board : β) (color : Char) (alpha0 beta : Score) (hab : alpha0 < beta) :
    ∀ (moves : List Move) (best p : Score), best < beta →
      (best ≤ alpha0 → p ≤ best) → (alpha0 < best → best = p) →
      ab_spec
        (max_loop api child moves board color (max alpha0 best) beta best)
        (fold_max
          (fun mv =>
            w (api.process_move board mv color) (opponent_color color))
          p moves)
        alpha0 beta := by
  intro moves
  induction moves with
  | nil =>
    intro best p hbest hB hC
    exact ⟨hB, fun h => absurd h (not_le.mpr hbest), fun h1 _ => hC h1⟩
  | cons mv rest ih =>
    intro best p hbest hB hC
    simp only [max_loop, fold_max_cons]
    set tb := api.process_move board mv color with htb
    set s := child tb (opponent_color color) (max alpha0 best) beta with hsdef
    set w' := w tb (opponent_color color) with hwdef
    obtain ⟨hs1, hs2, hs3⟩ :=
      hchild tb (opponent_color color) (max alpha0 best) beta
        (max_lt hab hbest)
    rw [← hsdef, ← hwdef] at hs1 hs2 hs3
    have hbest1 : (if s > best then s else best) = max best s := by
      rcases lt_or_le best s with h | h
      · rw [if_pos h, max_eq_right (le_of_lt h)]
      · rw [if_neg (not_lt.mpr h), max_eq_left h]
    rw [hbest1]
    by_cases hcut : beta ≤ max best s
    · rw [if_pos hcut]
      have hsb : best < s := by
        rcases lt_or_le best s with h | h
        · exact h
        · rw [max_eq_left h] at hcut
          exact absurd hcut (not_le.mpr hbest)
      have hmax : max best s = s := max_eq_right (le_of_lt hsb)
      rw [hmax] at hcut ⊢
      have hws : s ≤ w' := hs2 hcut
      refine ⟨fun hle => ?_, fun _ => ?_, fun _ hlt2 => ?_⟩
      · exact absurd (lt_of_le_of_lt (le_trans hcut hle) hab)
          (lt_irrefl beta)
      · exact le_trans (le_trans hws (le_max_right p w'))
          (le_fold_max_init _ rest (max p w'))
      · exact absurd (lt_of_lt_of_le hlt2 hcut) (lt_irrefl s)
    · rw [if_neg hcut]
      have halt : max best s < beta := not_le.mp hcut
      have hassoc : max (max alpha0 best) (max best s)
          = max alpha0 (max best s) := by
        rw [max_assoc, max_eq_right (le_max_left best s)]
      rw [hassoc]
      have hB' : max best s ≤ alpha0 → max p w' ≤ max best s := by
        intro h
        have h1b : best ≤ alpha0 := le_trans (le_max_left best s) h
        have h1s : s ≤ alpha0 := le_trans (le_max_right best s) h
        have hbp : p ≤ best := hB h1b
        have hsw : w' ≤ s := hs1 (le_trans h1s (le_max_left alpha0 best))
        exact max_le (le_trans hbp (le_max_left best s))
          (le_trans hsw (le_max_right best s))
      have hC' : alpha0 < max best s → max best s = max p w' := by
        intro h
        rcases lt_or_le best s with hbs | hsb
        · have hmax : max best s = s := max_eq_right (le_of_lt hbs)
          rw [hmax] at h halt ⊢
          have hsw : s = w' := hs3 (max_lt h hbs) halt
          have hps : p ≤ s := by
            rcases lt_or_le alpha0 best with hbb | hbb
            · rw [← hC hbb]
              exact le_of_lt hbs
            · exact le_trans (hB hbb) (le_of_lt hbs)
          rw [← hsw, max_eq_right hps]
        · have hmax : max best s = best := max_eq_left hsb
          rw [hmax] at h ⊢
          have hwb : w' ≤ best := by
            rcases lt_or_le (max alpha0 best) s with hlt | hge
            · rw [← hs3 hlt (lt_of_le_of_lt hsb hbest)]
              exact hsb
            · exact le_trans (hs1 hge) hsb
          rw [← hC h]
          exact (max_eq_left hwb).symm
      exact ih (max best s) (max p w') halt hB' hC'

/-- The windowed search satisfies the fail-soft contract against the
unpruned minimax value, for every window `alpha < beta`, at both kinds of
nodes; by mutual induction on the remaining depth. -/
lemma score_ab {β : Type} (api : BoardAPI β) :
    ∀ (d : Nat) (board : β) (color : Char) (alpha beta : Score),
      alpha < beta →
      ab_spec (min_score api board color alpha beta d)
        (minimax_min api board color d) alpha beta ∧
      ab_spec (max_score api board color alpha beta d)
        (minimax_max api board color d) alpha beta := by
  intro d
  induction d with
  | zero =>
    intro board color alpha beta _
    constructor
    · exact ⟨fun _ => le_refl _, fun _ => le_refl _, fun _ _ => rfl⟩
    · exact ⟨fun _ => le_refl _, fun _ => le_refl _, fun _ _ => rfl⟩
  | succ d ihd =>
    intro board color alpha beta hab
    constructor
    · have h := min_loop_ab api (fun b c a bt => max_score api b c a bt d)
        (fun b c => minimax_max api b c d)
        (fun b c a bt hlt => (ihd b c a bt hlt).2)
        board color alpha beta hab (api.legal_moves board color)
        INFINITY INFINITY (lt_of_lt_of_le hab le_top)
        (fun _ => le_refl INFINITY) (fun hcontra => absurd hcontra not_top_lt)
      have hmb : min beta INFINITY = beta := min_eq_left le_top
      rw [hmb] at h
      exact h
    · have h := max_loop_ab api (fun b c a bt => min_score api b c a bt d)
        (fun b c => minimax_min api b c d)
        (fun b c a bt hlt => (ihd b c a bt hlt).1)
        board color alpha beta hab (api.legal_moves board color)
        negINFINITY negINFINITY (lt_of_le_of_lt bot_le hab)
        (fun _ => le_refl negINFINITY)
        (fun hcontra => absurd hcontra not_lt_bot)
      have hma : max alpha negINFINITY = alpha := max_eq_left bot_le
      rw [hma] at h
      exact h

/-- With the full window `(-∞, +∞)` the alpha-beta MIN step computes the
unpruned minimax value exactly. -/
lemma min_score_full_window {β : Type} (api : BoardAPI β) (board : β)
    (color : Char) (d : Nat) :
    min_score api board color negINFINITY INFINITY d
      = minimax_min api board color d := by
  show min_score api board color ⊥ ⊤ d = minimax_min api board color d
  obtain ⟨h1, h2, h3⟩ := (score_ab api d board color ⊥ ⊤ bot_lt_top).1
  rcases eq_or_ne (min_score api board color ⊥ ⊤ d) ⊥ with hr | hr
  · have hv := h1 (le_of_eq hr)
    rw [hr] at hv
    rw [hr, le_bot_iff.mp hv]
  · rcases eq_or_ne (min_score api board color ⊥ ⊤ d) ⊤ with hr2 | hr2
    · have hv := h2 (le_of_eq hr2.symm)
      rw [hr2] at hv
      rw [hr2, top_le_iff.mp hv]
    · exact h3 (bot_lt_iff_ne_bot.mpr hr) (lt_top_iff_ne_top.mpr hr2)

/-- Each root candidate is scored identically by the pruned and the
unpruned search, because the root always opens the full window. -/
lemma root_score_eq_minimax {β : Type} (api : BoardAPI β)
    (g : GameStrategy β) (m : Move) :
    root_score api g m = minimax_root_score api g m :=
  min_score_full_window api (api.process_move g.board m g.color)
    g.opponent_color ((g.depth_limit - 1).toNat)

/-- Alpha-beta selection and unpruned minimax selection coincide on every
input, including the empty-enumeration error case. -/
lemma alpha_beta_eq_minimax_select {β : Type} (api : BoardAPI β)
    (g : GameStrategy β) :
    alpha_beta_min_max api g = minimax_select api g := by
  unfold alpha_beta_min_max minimax_select
  rcases h : api.legal_moves g.board g.color with _ | ⟨m0, rest⟩
  · rfl
  · have hloops : root_loop api g (m0 :: rest) m0 negINFINITY
        = minimax_root_loop api g (m0 :: rest) m0 negINFINITY := by
      rw [root_loop_eq_select, minimax_root_loop_eq_select]
      exact select_loop_congr (root_score api g) (minimax_root_score api g)
        (m0 :: rest) m0 negINFINITY
        (fun m _ => root_score_eq_minimax api g m)
    show Except.ok (root_loop api g (m0 :: rest) m0 negINFINITY)
        = Except.ok (minimax_root_loop api g (m0 :: rest) m0 negINFINITY)
    rw [hloops]

/-! ## C2 -/

/-- C2: for a root position with at least one legal move and any depth
limit `d ≥ 1`, the move chosen by the alpha-beta search equals the move a
full unpruned depth-`d` minimax search with the same leaf evaluation, side
alternation, empty-enumeration convention and tie-break returns: pruning
never changes the selected move. -/
theorem C2_pruning_preserves_selection {β : Type} (api : BoardAPI β)
    (g : GameStrategy β)
    (hmoves : api.legal_moves g.board g.color ≠ [])
    (hdepth : 1 ≤ g.depth_limit) :
    alpha_beta_min_max api g = minimax_select api g :=
  alpha_beta_eq_minimax_select api g

/-- C2 witness: equality of the two selectors on the tied-score board. -/
theorem C2_pruning_preserves_selection_witness :
    (apiC5.legal_moves gC5.board gC5.color ≠ [] ∧ 1 ≤ gC5.depth_limit) ∧
      alpha_beta_min_max apiC5 gC5 = minimax_select apiC5 gC5 :=
  ⟨⟨by decide, by decide⟩,
    C2_pruning_preserves_selection apiC5 gC5 (by decide) (by decide)⟩

/-! ## Mutable-store model, for the frame property

In the source, boards are Python objects: `deepcopy(board)` allocates a
fresh object and `test_board.process_move(...)` mutates that fresh object
in place.  To state that the search never mutates the caller's board, the
object heap is made explicit: a store is a list of board values, a board
reference is an index into it, `deepcopy` appends a copy of the referenced
value, and a move application overwrites the referenced entry in place —
exactly the aliasing structure of the Python object graph. -/

/-- `copy.deepcopy`: append a copy of entry `b`, returning the new store
and the fresh reference. -/
def deepcopy {γ : Type} [Inhabited γ] (s : List γ) (b : Nat) :
    List γ × Nat :=
  (s ++ [s.getD b default], s.length)

/-- `board.process_move(move, color)` as in-place mutation of entry
`idx`. -/
def process_move_at {γ : Type} [Inhabited γ] (api : BoardAPI γ)
    (s : List γ) (idx : Nat) (move : Move) (color : Char) : List γ :=
  s.set idx (api.process_move (s.getD idx default) move color)

/-- The `_min_score` loop over the explicit store: copy the parent board,
mutate the copy, recurse on the copy's reference, thread the store. -/
def min_loop_st {γ : Type} [Inhabited γ] (api : BoardAPI γ)
    (child : List γ → Nat → Char → Score → Score → Score × List γ)
    (moves : List Move) (s : List γ) (b : Nat) (color : Char)
    (alpha beta best_score : Score) : Score × List γ :=
  match moves with
  | [] => (best_score, s)
  | move :: rest =>
    let cp := deepcopy s b
    let s1 := process_move_at api cp.1 cp.2 move color
    let res := child s1 cp.2 (opponent_color color) alpha beta
    let best_score1 := if res.1 < best_score then res.1 else best_score
    if best_score1 ≤ alpha then (best_score1, res.2)
    else min_loop_st api child rest res.2 b color alpha
      (min beta best_score1) best_score1

/-- The `_max_score` loop over the explicit store. -/
def max_loop_st {γ : Type} [Inhabited γ] (api : BoardAPI γ)
    (child : List γ → Nat → Char → Score → Score → Score × List γ)
    (moves : List Move) (s : List γ) (b : Nat) (color : Char)
    (alpha beta best_score : Score) : Score × List γ :=
  match moves with
  | [] => (best_score, s)
  | move :: rest =>
    let cp := deepcopy s b
    let s1 := process_move_at api cp.1 cp.2 move color
    let res := child s1 cp.2 (opponent_color color) alpha beta
    let best_score1 := if res.1 > best_score then res.1 else best_score
    if best_score1 ≥ beta then (best_score1, res.2)
    else max_loop_st api child rest res.2 b color
      (max alpha best_score1) beta best_score1

mutual

/-- `_min_score` over the explicit store. -/
def min_score_st {γ : Type} [Inhabited γ] (api : BoardAPI γ) (s : List γ)
    (b : Nat) (color : Char) (alpha beta : Score) (depth : Nat) :
    Score × List γ :=
  match depth with
  | 0 => (Score.ofInt (cost_compute api (s.getD b default) color), s)
  | d + 1 =>
    min_loop_st api (fun s' b' c a bt => max_score_st api s' b' c a bt d)
      (api.legal_moves (s.getD b default) color) s b color alpha beta
      INFINITY

/-- `_max_score` over the explicit store. -/
def max_score_st {γ : Type} [Inhabited γ] (api : BoardAPI γ) (s : List γ)
    (b : Nat) (color : Char) (alpha beta : Score) (depth : Nat) :
    Score × List γ :=
  match depth with
  | 0 => (Score.ofInt (cost_compute api (s.getD b default) color), s)
  | d + 1 =>
    max_loop_st api (fun s' b' c a bt => min_score_st api s' b' c a bt d)
      (api.legal_moves (s.getD b default) color) s b color alpha beta
      negINFINITY

end

/-- The root loop of `alpha_beta_min_max` over the explicit store. -/
def root_loop_st {γ : Type} [Inhabited γ] (api : BoardAPI γ)
    (moves : List Move) (s : List γ) (b : Nat) (color : Char) (dl : Int)
    (final_move : Move) (best_score : Score) : Move × List γ :=
  match moves with
  | [] => (final_move, s)
  | move :: rest =>
    let cp := deepcopy s b
    let s1 := process_move_at api cp.1 cp.2 move color
    let res := min_score_st api s1 cp.2 (opponent_color color) negINFINITY
      INFINITY (dl - 1).toNat
    if res.1 > best_score then root_loop_st api rest res.2 b color dl move
      res.1
    else root_loop_st api rest res.2 b color dl final_move best_score

/-- `alpha_beta_min_max` over the explicit store: the engine's board is
the entry `b` of the caller's store `s`. -/
def alpha_beta_min_max_st {γ : Type} [Inhabited γ] (api : BoardAPI γ)
    (s : List γ) (b : Nat) (color : Char) (dl : Int) :
    Except PyErr Move × List γ :=
  match api.legal_moves (s.getD b default) color with
  | [] => (Except.error PyErr.indexError, s)
  | m0 :: rest =>
    let res := root_loop_st api (m0 :: rest) s b color dl m0 negINFINITY
    (Except.ok res.1, res.2)

lemma getD_append_length {γ : Type} [Inhabited γ] (s : List γ) (x : γ) :
    (s ++ [x]).getD s.length default = x := by
  rw [List.getD_eq_getElem?_getD, List.getElem?_append_right (le_refl s.length)]
  simp

lemma set_append_length {γ : Type} (s : List γ) (b y : γ) :
    (s ++ [b]).set s.length y = s ++ [y] := by
  induction s with
  | nil => rfl
  | cons a tl ih =>
    show a :: ((tl ++ [b]).set tl.length y) = a :: (tl ++ [y])
    rw [ih]

lemma getD_append_lt {γ : Type} [Inhabited γ] (s t : List γ) (b : Nat)
    (h : b < s.length) : (s ++ t).getD b default = s.getD b default :=
  List.getD_append s t default b h

lemma lt_length_append {γ : Type} (s t : List γ) (b : Nat)
    (h : b < s.length) : b < (s ++ t).length := by
  rw [List.length_append]
  omega

/-- One copy-then-mutate step leaves the existing entries untouched and
appends the successor board. -/
lemma store_step {γ : Type} [Inhabited γ] (api : BoardAPI γ) (s : List γ)
    (b : Nat) (mv : Move) (color : Char) :
    process_move_at api (deepcopy s b).1 (deepcopy s b).2 mv color
      = s ++ [api.process_move (s.getD b default) mv color] := by
  show (s ++ [s.getD b default]).set s.length
      (api.process_move ((s ++ [s.getD b default]).getD s.length default)
        mv color)
      = s ++ [api.process_move (s.getD b default) mv color]
  rw [getD_append_length, set_append_length]

/-- The store-passing MIN loop computes the same score as the pure loop on
the content of entry `b`, and only ever appends to the store. -/
lemma min_loop_st_spec {γ : Type} [Inhabited γ] (api : BoardAPI γ)
    (childSt : List γ → Nat → Char → Score → Score → Score × List γ)
    (child : γ → Char → Score → Score → Score)
    (hchild : ∀ (s : List γ) (b : Nat) (c : Char) (a bt : Score),
      b < s.length →
      (childSt s b c a bt).1 = child (s.getD b default) c a bt ∧
      ∃ t, (childSt s b c a bt).2 = s ++ t) :
    ∀ (moves : List Move) (s : List γ) (b : Nat) (color : Char)
      (alpha beta best : Score), b < s.length →
      (min_loop_st api childSt moves s b color alpha beta best).1
          = min_loop api child moves (s.getD b default) color alpha beta
            best ∧
      ∃ t, (min_loop_st api childSt moves s b color alpha beta best).2
          = s ++ t := by
  intro moves
  induction moves with
  | nil =>
    intro s b color alpha beta best _
    exact ⟨rfl, [], (List.append_nil s).symm⟩
  | cons mv rest ih =>
    intro s b color alpha beta best hb
    simp only [min_loop_st, min_loop]
    have hlen : (deepcopy s b).2 = s.length := rfl
    rw [store_step, hlen]
    set x := api.process_move (s.getD b default) mv color with hx
    obtain ⟨hv, t1, ht1⟩ := hchild (s ++ [x]) s.length
      (opponent_color color) alpha beta
      (by rw [List.length_append]; simp)
    rw [getD_append_length] at hv
    rw [hv, ht1]
    set sc := child x (opponent_color color) alpha beta with hsc
    set b1 := if sc < best then sc else best with hb1
    by_cases hcut : b1 ≤ alpha
    · simp only [if_pos hcut]
      exact ⟨trivial, [x] ++ t1, List.append_assoc s [x] t1⟩
    · simp only [if_neg hcut]
      obtain ⟨ih1, t2, iht2⟩ := ih ((s ++ [x]) ++ t1) b color alpha
        (min beta b1) b1 (lt_length_append _ _ _ (lt_length_append _ _ _ hb))
      have hcont : ((s ++ [x]) ++ t1).getD b default = s.getD b default := by
        rw [List.append_assoc]
        exact getD_append_lt s ([x] ++ t1) b hb
      rw [hcont] at ih1
      refine ⟨ih1, [x] ++ t1 ++ t2, ?_⟩
      rw [iht2]
      simp [List.append_assoc]

/-- The store-passing MAX loop: mirror of `min_loop_st_spec`. -/
lemma max_loop_st_spec {γ : Type} [Inhabited γ] (api : BoardAPI γ)
    (childSt : List γ → Nat → Char → Score → Score → Score × List γ)
    (child : γ → Char → Score → Score → Score)
    (hchild : ∀ (s : List γ) (b : Nat) (c : Char) (a bt : Score),
      b < s.length →
      (childSt s b c a bt).1 = child (s.getD b default) c a bt ∧
      ∃ t, (childSt s b c a bt).2 = s ++ t) :
    ∀ (moves : List Move) (s : List γ) (b : Nat) (color : Char)
      (alpha beta best : Score), b < s.length →
      (max_loop_st api childSt moves s b color alpha beta best).1
          = max_loop api child moves (s.getD b default) color alpha beta
            best ∧
      ∃ t, (max_loop_st api childSt moves s b color alpha beta best).2
          = s ++ t := by
  intro moves
  induction moves with
  | nil =>
    intro s b color alpha beta best _
    exact ⟨rfl, [], (List.append_nil s).symm⟩
  | cons mv rest ih =>
    intro s b color alpha beta best hb
    simp only [max_loop_st, max_loop]
    have hlen : (deepcopy s b).2 = s.length := rfl
    rw [store_step, hlen]
    set x := api.process_move (s.getD b default) mv color with hx
    obtain ⟨hv, t1, ht1⟩ := hchild (s ++ [x]) s.length
      (opponent_color color) alpha beta
      (by rw [List.length_append]; simp)
    rw [getD_append_length] at hv
    rw [hv, ht1]
    set sc := child x (opponent_color color) alpha beta with hsc
    set b1 := if sc > best then sc else best with hb1
    by_cases hcut : b1 ≥ beta
    · simp only [if_pos hcut]
      exact ⟨trivial, [x] ++ t1, List.append_assoc s [x] t1⟩
    · simp only [if_neg hcut]
      obtain ⟨ih1, t2, iht2⟩ := ih ((s ++ [x]) ++ t1) b color
        (max alpha b1) beta b1
        (lt_length_append _ _ _ (lt_length_append _ _ _ hb))
      have hcont : ((s ++ [x]) ++ t1).getD b default = s.getD b default := by
        rw [List.append_assoc]
        exact getD_append_lt s ([x] ++ t1) b hb
      rw [hcont] at ih1
      refine ⟨ih1, [x] ++ t1 ++ t2, ?_⟩
      rw [iht2]
      simp [List.append_assoc]

/-- The store-passing recursive steps compute the pure scores and only
append to the store. -/
lemma score_st_spec {γ : Type} [Inhabited γ] (api : BoardAPI γ) :
    ∀ (d : Nat) (s : List γ) (b : Nat) (color : Char) (alpha beta : Score),
      b < s.length →
      ((min_score_st api s b color alpha beta d).1
          = min_score api (s.getD b default) color alpha beta d ∧
        ∃ t, (min_score_st api s b color alpha beta d).2 = s ++ t) ∧
      ((max_score_st api s b color alpha beta d).1
          = max_score api (s.getD b default) color alpha beta d ∧
        ∃ t, (max_score_st api s b color alpha beta d).2 = s ++ t) := by
  intro d
  induction d with
  | zero =>
    intro s b color alpha beta _
    exact ⟨⟨rfl, [], (List.append_nil s).symm⟩,
      ⟨rfl, [], (List.append_nil s).symm⟩⟩
  | succ d ihd =>
    intro s b color alpha beta hb
    constructor
    · exact min_loop_st_spec api
        (fun s' b' c a bt => max_score_st api s' b' c a bt d)
        (fun b' c a bt => max_score api b' c a bt d)
        (fun s' b' c a bt hb' => (ihd s' b' c a bt hb').2)
        (api.legal_moves (s.getD b default) color) s b color alpha beta
        INFINITY hb
    · exact max_loop_st_spec api
        (fun s' b' c a bt => min_score_st api s' b' c a bt d)
        (fun b' c a bt => min_score api b' c a bt d)
        (fun s' b' c a bt hb' => (ihd s' b' c a bt hb').1)
        (api.legal_moves (s.getD b default) color) s b color alpha beta
        negINFINITY hb

/-- The store-passing root loop selects the pure loop's move and only
appends to the store. -/
lemma root_loop_st_spec {γ : Type} [Inhabited γ] (api : BoardAPI γ)
    (dl : Int) (color : Char) :
    ∀ (moves : List Move) (s : List γ) (b : Nat) (fm : Move)
      (best : Score), b < s.length →
      (root_loop_st api moves s b color dl fm best).1
          = root_loop api
            ⟨dl, s.getD b default, color, opponent_color color⟩ moves fm
            best ∧
      ∃ t, (root_loop_st api moves s b color dl fm best).2 = s ++ t := by
  intro moves
  induction moves with
  | nil =>
    intro s b fm best _
    exact ⟨rfl, [], (List.append_nil s).symm⟩
  | cons mv rest ih =>
    intro s b fm best hb
    simp only [root_loop_st, root_loop, root_score]
    have hlen : (deepcopy s b).2 = s.length := rfl
    rw [store_step, hlen]
    set x := api.process_move (s.getD b default) mv color with hx
    obtain ⟨⟨hv, t1, ht1⟩, _⟩ := score_st_spec api (dl - 1).toNat (s ++ [x])
      s.length (opponent_color color) negINFINITY INFINITY
      (by rw [List.length_append]; simp)
    rw [getD_append_length] at hv
    rw [hv, ht1]
    set sc := min_score api x (opponent_color color) negINFINITY INFINITY
      (dl - 1).toNat with hsc
    have hblt : b < ((s ++ [x]) ++ t1).length :=
      lt_length_append _ _ _ (lt_length_append _ _ _ hb)
    have hcont : ((s ++ [x]) ++ t1).getD b default = s.getD b default := by
      rw [List.append_assoc]
      exact getD_append_lt s ([x] ++ t1) b hb
    by_cases hgt : sc > best
    · simp only [if_pos hgt]
      obtain ⟨ih1, t2, iht2⟩ := ih ((s ++ [x]) ++ t1) b mv sc hblt
      rw [hcont] at ih1
      refine ⟨ih1, [x] ++ t1 ++ t2, ?_⟩
      rw [iht2]
      simp [List.append_assoc]
    · simp only [if_neg hgt]
      obtain ⟨ih1, t2, iht2⟩ := ih ((s ++ [x]) ++ t1) b fm best hblt
      rw [hcont] at ih1
      refine ⟨ih1, [x] ++ t1 ++ t2, ?_⟩
      rw [iht2]
      simp [List.append_assoc]

/-! ## C8 -/

/-- C8: the search has no observable side effect on the caller's store.
Running the selection over the explicit object store returns exactly the
pure selection computed from the content of the engine's board entry, the
final store is the caller's store plus freshly appended scratch copies,
and in particular the engine's board entry reads identically before and
after the call. -/
theorem C8_no_observable_mutation {γ : Type} [Inhabited γ]
    (api : BoardAPI γ) (s : List γ) (b : Nat) (color : Char) (dl : Int)
    (hb : b < s.length) :
    (alpha_beta_min_max_st api s b color dl).1
        = alpha_beta_min_max api
          ⟨dl, s.getD b default, color, opponent_color color⟩ ∧
      (∃ t, (alpha_beta_min_max_st api s b color dl).2 = s ++ t) ∧
      (alpha_beta_min_max_st api s b color dl).2.getD b default
        = s.getD b default := by
  unfold alpha_beta_min_max_st alpha_beta_min_max
  rcases h : api.legal_moves (s.getD b default) color with _ | ⟨m0, rest⟩
  · exact ⟨rfl, ⟨[], (List.append_nil s).symm⟩, rfl⟩
  · obtain ⟨h1, t, ht⟩ := root_loop_st_spec api dl color (m0 :: rest) s b
      m0 negINFINITY hb
    refine ⟨?_, ⟨t, ht⟩, ?_⟩
    · show Except.ok (root_loop_st api (m0 :: rest) s b color dl m0
          negINFINITY).1 = Except.ok _
      rw [h1]
    · show (root_loop_st api (m0 :: rest) s b color dl m0
          negINFINITY).2.getD b default = s.getD b default
      rw [ht]
      exact getD_append_lt s t b hb

/-- C8 witness: the statement on `apiC1` with the one-entry store holding
the root board. -/
theorem C8_no_observable_mutation_witness :
    (0 < ([0] : List Nat).length) ∧
      ((alpha_beta_min_max_st apiC1 [0] 0 'B' 1).1
          = alpha_beta_min_max apiC1 ⟨1, ([0] : List Nat).getD 0 default,
            'B', opponent_color 'B'⟩ ∧
        (∃ t, (alpha_beta_min_max_st apiC1 [0] 0 'B' 1).2 = [0] ++ t) ∧
        (alpha_beta_min_max_st apiC1 [0] 0 'B' 1).2.getD 0 default
          = ([0] : List Nat).getD 0 default) :=
  ⟨by decide, C8_no_observable_mutation apiC1 [0] 0 'B' 1 (by decide)⟩

/-! ## Fuel-indexed search, for the termination claim

`min_score_fuel`/`max_score_fuel` are the recursive steps with an explicit
budget of nested plies: descending one ply (the only recursive edge, taken
with `depth - 1`) consumes one unit of fuel, and an exhausted budget yields
`none`.  That `fuel ≥ depth` suffices for a `some` answer expresses that
the remaining depth strictly bounds the recursion. -/

/-- `min_loop` with a fallible child: `none` aborts the whole loop. -/
def min_loop_fuel {β : Type} (api : BoardAPI β)
    (child : β → Char → Score → Score → Option Score) (moves : List Move)
    (board : β) (color : Char) (alpha beta : Score) (best_score : Score) :
    Option Score :=
  match moves with
  | [] => some best_score
  | move :: rest =>
    match child (api.process_move board move color) (opponent_color color)
        alpha beta with
    | none => none
    | some score =>
      let best_score1 := if score < best_score then score else best_score
      if best_score1 ≤ alpha then some best_score1
      else min_loop_fuel api child rest board color alpha
        (min beta best_score1) best_score1

/-- `max_loop` with a fallible child. -/
def max_loop_fuel {β : Type} (api : BoardAPI β)
    (child : β → Char → Score → Score → Option Score) (moves : List Move)
    (board : β) (color : Char) (alpha beta : Score) (best_score : Score) :
    Option Score :=
  match moves with
  | [] => some best_score
  | move :: rest =>
    match child (api.process_move board move color) (opponent_color color)
        alpha beta with
    | none => none
    | some score =>
      let best_score1 := if score > best_score then score else best_score
      if best_score1 ≥ beta then some best_score1
      else max_loop_fuel api child rest board color (max alpha best_score1)
        beta best_score1

mutual

/-- `_min_score` with a ply budget. -/
def min_score_fuel {β : Type} (api : BoardAPI β) (fuel : Nat) (board : β)
    (color : Char) (alpha beta : Score) (depth : Nat) : Option Score :=
  match depth with
  | 0 => some (Score.ofInt (cost_compute api board color))
  | d + 1 =>
    match fuel with
    | 0 => none
    | f + 1 =>
      min_loop_fuel api (fun b c a bt => max_score_fuel api f b c a bt d)
        (api.legal_moves board color) board color alpha beta INFINITY

/-- `_max_score` with a ply budget. -/
def max_score_fuel {β : Type} (api : BoardAPI β) (fuel : Nat) (board : β)
    (color : Char) (alpha beta : Score) (depth : Nat) : Option Score :=
  match depth with
  | 0 => some (Score.ofInt (cost_compute api board color))
  | d + 1 =>
    match fuel with
    | 0 => none
    | f + 1 =>
      max_loop_fuel api (fun b c a bt => min_score_fuel api f b c a bt d)
        (api.legal_moves board color) board color alpha beta negINFINITY

end

lemma min_loop_fuel_eq {β : Type} (api : BoardAPI β)
    (childF : β → Char → Score → Score → Option Score)
    (child : β → Char → Score → Score → Score)
    (hc : ∀ (b : β) (c : Char) (a bt : Score),
      childF b c a bt = some (child b c a bt)) :
    ∀ (moves : List Move) (board : β) (color : Char)
      (alpha beta best : Score),
      min_loop_fuel api childF moves board color alpha beta best
        = some (min_loop api child moves board color alpha beta best) := by
  intro moves
  induction moves with
  | nil => intro board color alpha beta best; rfl
  | cons mv rest ih =>
    intro board color alpha beta best
    simp only [min_loop_fuel, min_loop, hc]
    set s := child (api.process_move board mv color) (opponent_color color)
      alpha beta with hs
    set b1 := if s < best then s else best with hb1
    by_cases h : b1 ≤ alpha
    · rw [if_pos h, if_pos h]
    · rw [if_neg h, if_neg h]
      exact ih board color alpha (min beta b1) b1

lemma max_loop_fuel_eq {β : Type} (api : BoardAPI β)
    (childF : β → Char → Score → Score → Option Score)
    (child : β → Char → Score → Score → Score)
    (hc : ∀ (b : β) (c : Char) (a bt : Score),
      childF b c a bt = some (child b c a bt)) :
    ∀ (moves : List Move) (board : β) (color : Char)
      (alpha beta best : Score),
      max_loop_fuel api childF moves board color alpha beta best
        = some (max_loop api child moves board color alpha beta best) := by
  intro moves
  induction moves with
  | nil => intro board color alpha beta best; rfl
  | cons mv rest ih =>
    intro board color alpha beta best
    simp only [max_loop_fuel, max_loop, hc]
    set s := child (api.process_move board mv color) (opponent_color color)
      alpha beta with hs
    set b1 := if s > best then s else best with hb1
    by_cases h : b1 ≥ beta
    · rw [if_pos h, if_pos h]
    · rw [if_neg h, if_neg h]
      exact ih board color (max alpha b1) beta b1

lemma score_fuel_eq {β : Type} (api : BoardAPI β) :
    ∀ (fuel depth : Nat), depth ≤ fuel →
      ∀ (board : β) (color : Char) (alpha beta : Score),
        min_score_fuel api fuel board color alpha beta depth
            = some (min_score api board color alpha beta depth) ∧
          max_score_fuel api fuel board color alpha beta depth
            = some (max_score api board color alpha beta depth) := by
  intro fuel
  induction fuel with
  | zero =>
    intro depth hd board color alpha beta
    have h0 : depth = 0 := Nat.le_zero.mp hd
    subst h0
    exact ⟨rfl, rfl⟩
  | succ f ihf =>
    intro depth hd board color alpha beta
    cases depth with
    | zero => exact ⟨rfl, rfl⟩
    | succ d =>
      have hdf : d ≤ f := Nat.succ_le_succ_iff.mp hd
      constructor
      · exact min_loop_fuel_eq api
          (fun b c a bt => max_score_fuel api f b c a bt d)
          (fun b c a bt => max_score api b c a bt d)
          (fun b c a bt => (ihf d hdf b c a bt).2)
          (api.legal_moves board color) board color alpha beta INFINITY
      · exact max_loop_fuel_eq api
          (fun b c a bt => min_score_fuel api f b c a bt d)
          (fun b c a bt => min_score api b c a bt d)
          (fun b c a bt => (ihf d hdf b c a bt).1)
          (api.legal_moves board color) board color alpha beta negINFINITY

/-! ## C9 -/

/-- C9: the search is a total, terminating computation because the
remaining depth strictly decreases by exactly 1 along the single recursive
edge between the two steps.  Concretely: at depth 0 both steps return the
static evaluation without recursing, and a ply budget of `fuel ≥ depth`
always suffices for the fuel-indexed search to answer (never exhausting
its budget) with exactly the value of the total search. -/
theorem C9_search_terminates_within_depth {β : Type} (api : BoardAPI β)
    (fuel depth : Nat) (hfd : depth ≤ fuel) :
    ∀ (board : β) (color : Char) (alpha beta : Score),
      (min_score api board color alpha beta 0
          = Score.ofInt (cost_compute api board color) ∧
        max_score api board color alpha beta 0
          = Score.ofInt (cost_compute api board color)) ∧
      min_score_fuel api fuel board color alpha beta depth
          = some (min_score api board color alpha beta depth) ∧
        max_score_fuel api fuel board color alpha beta depth
          = some (max_score api board color alpha beta depth) :=
  fun board color alpha beta =>
    ⟨⟨rfl, rfl⟩, score_fuel_eq api fuel depth hfd board color alpha beta⟩

/-- C9 witness: on `apiC1`, a budget of 2 plies answers a depth-2 search. -/
theorem C9_search_terminates_within_depth_witness :
    (2 ≤ 2) ∧
      ((min_score apiC1 0 'B' negINFINITY INFINITY 0
          = Score.ofInt (cost_compute apiC1 0 'B') ∧
        max_score apiC1 0 'B' negINFINITY INFINITY 0
          = Score.ofInt (cost_compute apiC1 0 'B')) ∧
      min_score_fuel apiC1 2 0 'B' negINFINITY INFINITY 2
          = some (min_score apiC1 0 'B' negINFINITY INFINITY 2) ∧
        max_score_fuel apiC1 2 0 'B' negINFINITY INFINITY 2
          = some (max_score apiC1 0 'B' negINFINITY INFINITY 2)) :=
  ⟨le_refl 2, C9_search_terminates_within_depth apiC1 2 2 (le_refl 2) 0 'B'
    negINFINITY INFINITY⟩

/-! ## C10 -/

/-- C10: `make_move` always constructs the engine with the fixed depth
limit 4 and returns what `alpha_beta_min_max` returns for that engine, so
every externally requested move is the result of a 4-ply search (equal, by
the pruning-soundness lemma, to a 4-ply unpruned minimax selection). -/
theorem C10_make_move_uses_depth_4 {β : Type} (api : BoardAPI β)
    (the_board : β) (color : Char) :
    make_move api the_board color
        = alpha_beta_min_max api ⟨4, the_board, color, opponent_color color⟩ ∧
      make_move api the_board color
        = minimax_select api ⟨4, the_board, color, opponent_color color⟩ :=
  ⟨rfl, alpha_beta_eq_minimax_select api ⟨4, the_board, color,
    opponent_color color⟩⟩
